import Mathlib

/-!
Verification of the purge engine of `moist_bot` (`src/moist_bot/cogs/purge.py`).

The embedding models a purge run over an abstract channel environment:
the history stream the channel yields, a per-message oracle describing the
outcome of a single remote delete call, and a per-chunk oracle describing
whether a batch delete call succeeds.  The functions mirror the source
(`ChannelPurger._delete_single`, `ChannelPurger._bulk_delete`,
`ChannelPurger.purge`, `Purge._validate_and_purge`, `Purge._send_result`)
and additionally record the remote calls issued as an event trace.
-/

namespace MoistBot

/-- Result of one remote delete call on one message: success, the platform
`NotFound` error, or any other `HTTPException` (a hard failure). -/
inductive DeleteResult where
  | ok
  | notFound
  | httpError
deriving DecidableEq, Repr

/-- A channel message as seen by the purge cog: identity, author identity,
the author's display name, creation timestamp (seconds), and the oracle
describing what a remote delete call on this message raises. -/
structure Message where
  id : Nat
  authorId : Nat
  displayName : String
  createdAt : Int
  deleteResult : DeleteResult
deriving DecidableEq, Repr

/-- Observable remote calls issued during a purge run. -/
inductive Event where
  | historyFetch (scanLimit : Nat)
  | delete (id : Nat)
  | batch (ids : List Nat)
  | prompt
deriving DecidableEq, Repr

/-- The remote channel environment: the history stream yielded by
`channel.history(...)` and an oracle telling whether the batch call
`channel.delete_messages(chunk)` succeeds on a given chunk. -/
structure Env where
  history : List Message
  batchOk : List Message → Bool

/-- `BULK_DELETE_LIMIT = datetime.timedelta(days=14)`, in seconds. -/
def BULK_DELETE_LIMIT : Int := 14 * 24 * 60 * 60

/-- `ChannelPurger._delete_single`: one delete call; `NotFound` is swallowed,
any other `HTTPException` reports a hard failure, and on every non-hard
outcome the message is appended to `self.deleted`.  Returns
`(success flag, newly appended messages, remote calls issued)`. -/
def delete_single (msg : Message) : Bool × List Message × List Event :=
  match msg.deleteResult with
  | .httpError => (false, [], [.delete msg.id])
  | _ => (true, [msg], [.delete msg.id])

/-- The sequential individual-deletion loop
(`for msg in ...: if not await self._delete_single(msg): <stop>`):
attempts items one at a time in order, stopping at the first hard failure.
Returns the appended messages, the calls issued, and `true` iff no hard
failure occurred. -/
def deleteLoop : List Message → List Message × List Event × Bool
  | [] => ([], [], true)
  | m :: rest =>
    match delete_single m with
    | (true, d, e) =>
      let (d', e', okFlag) := deleteLoop rest
      (d ++ d', e ++ e', okFlag)
    | (false, d, e) => (d, e, false)

/-- Fuel-driven worker for `chunks100` (the fuel only forces structural
termination; `chunks100` supplies enough for the whole list). -/
def chunksGo : Nat → List Message → List (List Message)
  | _, [] => []
  | 0, _ :: _ => []
  | fuel + 1, a :: rest => ((a :: rest).take 100) :: chunksGo fuel ((a :: rest).drop 100)

/-- The chunking of `range(0, len(messages), 100)`:
consecutive chunks of at most 100 items. -/
def chunks100 (l : List Message) : List (List Message) :=
  chunksGo l.length l

/-- The per-chunk loop of `ChannelPurger._bulk_delete`: a chunk of exactly one
message uses the single-item call `chunk[0].delete()`, otherwise the batch
call `channel.delete_messages(chunk)` is issued.  On success the whole chunk
is appended to `self.deleted`; on `HTTPException` the chunk falls back to the
individual loop, and a hard failure there returns, skipping every remaining
chunk.  Returns the appended messages, the calls issued, and whether a hard
abort happened. -/
def bulkChunkLoop (env : Env) : List (List Message) → List Message × List Event × Bool
  | [] => ([], [], false)
  | chunk :: rest =>
    match chunk with
    | [m] =>
      match m.deleteResult with
      | .ok =>
        let (d, e, ab) := bulkChunkLoop env rest
        (m :: d, .delete m.id :: e, ab)
      | _ =>
        let (d1, e1, okFlag) := deleteLoop chunk
        if okFlag then
          let (d, e, ab) := bulkChunkLoop env rest
          (d1 ++ d, .delete m.id :: (e1 ++ e), ab)
        else
          (d1, .delete m.id :: e1, true)
    | _ =>
      if env.batchOk chunk then
        let (d, e, ab) := bulkChunkLoop env rest
        (chunk ++ d, .batch (chunk.map Message.id) :: e, ab)
      else
        let (d1, e1, okFlag) := deleteLoop chunk
        if okFlag then
          let (d, e, ab) := bulkChunkLoop env rest
          (d1 ++ d, .batch (chunk.map Message.id) :: (e1 ++ e), ab)
        else
          (d1, .batch (chunk.map Message.id) :: e1, true)

/-- `ChannelPurger._bulk_delete`. -/
def bulk_delete (env : Env) (messages : List Message) :
    List Message × List Event × Bool :=
  bulkChunkLoop env (chunks100 messages)

/-- The scanning loop of `ChannelPurger.purge`: walk the history stream under
a raw-item budget, appending messages that satisfy `check` and breaking once
`limit` matches have been collected.  Returns the matched messages and the
number of raw items examined. -/
def scanLoop (check : Message → Bool) (limit : Nat) :
    List Message → Nat → List Message → Nat → List Message × Nat
  | [], _, acc, ex => (acc, ex)
  | _ :: _, 0, acc, ex => (acc, ex)
  | m :: rest, b + 1, acc, ex =>
    if check m then
      if limit ≤ acc.length + 1 then (acc ++ [m], ex + 1)
      else scanLoop check limit rest b (acc ++ [m]) (ex + 1)
    else scanLoop check limit rest b acc (ex + 1)

/-- `scan_limit = min(limit * 5, 5000)`. -/
def scan_limit (limit : Nat) : Nat := min (limit * 5) 5000

/-- The messages collected by the scanning loop of `ChannelPurger.purge`. -/
def matchedMessages (env : Env) (limit : Nat) (check : Message → Bool) :
    List Message :=
  (scanLoop check limit env.history (scan_limit limit) [] 0).1

/-- The number of raw history items examined by `ChannelPurger.purge`. -/
def examinedCount (env : Env) (limit : Nat) (check : Message → Bool) : Nat :=
  (scanLoop check limit env.history (scan_limit limit) [] 0).2

/-- `bulk_msgs = [m for m in messages if m.created_at > bulk_cutoff]`. -/
def bulkPartition (cutoff : Int) (messages : List Message) : List Message :=
  messages.filter fun m => decide (cutoff < m.createdAt)

/-- `old_msgs = [m for m in messages if m.created_at <= bulk_cutoff]`. -/
def oldPartition (cutoff : Int) (messages : List Message) : List Message :=
  messages.filter fun m => decide (m.createdAt ≤ cutoff)

/-- `ChannelPurger.purge(limit, check)`: compute the cutoff once, scan for up
to `limit` matches within the scan ceiling, return early when nothing
matched, otherwise partition by age, bulk-delete the recent partition, then
individually delete the old partition (breaking on a hard failure).  Returns
`self.deleted` and the remote calls issued. -/
def purge (env : Env) (now : Int) (limit : Nat) (check : Message → Bool) :
    List Message × List Event :=
  let bulk_cutoff := now - BULK_DELETE_LIMIT
  let messages := matchedMessages env limit check
  if messages.isEmpty then ([], [.historyFetch (scan_limit limit)])
  else
    let (d1, e1, _) := bulk_delete env (bulkPartition bulk_cutoff messages)
    let (d2, e2, _) := deleteLoop (oldPartition bulk_cutoff messages)
    (d1 ++ d2, .historyFetch (scan_limit limit) :: (e1 ++ e2))

/-- What `Purge._validate_and_purge` reports back to the invoker. -/
inductive PurgeReply where
  | validationError
  | cancelled
  | completed (deleted : List Message)
deriving DecidableEq, Repr

/-- `Purge._validate_and_purge`: reject limits outside `[1, 2000]` before any
remote call; above the confirmation threshold, prompt and stop on decline;
otherwise run the purge and report the outcome. -/
def validate_and_purge (env : Env) (now : Int) (limit : Int)
    (check : Message → Bool) (confirmAnswer : Bool) (confirmThreshold : Int) :
    PurgeReply × List Event :=
  if limit < 1 ∨ 2000 < limit then (.validationError, [])
  else if confirmThreshold < limit then
    if confirmAnswer then
      let (deleted, events) := purge env now limit.toNat check
      (.completed deleted, .prompt :: events)
    else
      (.cancelled, [.prompt])
  else
    let (deleted, events) := purge env now limit.toNat check
    (.completed deleted, events)

/-- The insertion-ordered dict update of `Purge._send_result`:
`authors[name] = authors.get(name, 0) + 1`. -/
def bumpAuthor : List (String × Nat) → String → List (String × Nat)
  | [], name => [(name, 1)]
  | (n, c) :: rest, name =>
    if n = name then (n, c + 1) :: rest else (n, c) :: bumpAuthor rest name

/-- The insertion-ordered author-count dict of `Purge._send_result`, keyed by
`msg.author.display_name`. -/
def authorCounts (deleted : List Message) : List (String × Nat) :=
  deleted.foldl (fun acc m => bumpAuthor acc m.displayName) []

/-- One step of a stable descending-by-count sort: insert `x` before the
first entry whose count does not exceed `x`'s (so `x` lands before every
later entry of equal count, as a stable sort demands). -/
def insertDesc (x : String × Nat) : List (String × Nat) → List (String × Nat)
  | [] => [x]
  | y :: rest => if y.2 ≤ x.2 then x :: y :: rest else y :: insertDesc x rest

/-- Stable sort, descending by count.  `sorted` in Python is a stable sort;
with `key=operator.itemgetter(1), reverse=True` its output on any input is
exactly this stable insertion sort's (stable sorts agree pointwise). -/
def sortDesc : List (String × Nat) → List (String × Nat)
  | [] => []
  | x :: rest => insertDesc x (sortDesc rest)

/-- `sorted(authors.items(), key=operator.itemgetter(1), reverse=True)`. -/
def sortedAuthors (deleted : List Message) : List (String × Nat) :=
  sortDesc (authorCounts deleted)

/-- Abstract rendering of the message sent by `Purge._send_result`. -/
inductive ResultMsg where
  | nothingMatched
  | summary (count : Nat) (entries : List (String × Nat)) (omitted : Option Nat)
deriving DecidableEq, Repr

/-- `Purge._send_result`: zero deletions yield the distinct warning message;
otherwise an embed with the removed count, the top-10 author breakdown, and,
when more than 10 distinct names occur, a note with the exact number of
omitted entries. -/
def send_result (deleted : List Message) : ResultMsg :=
  if deleted.length = 0 then .nothingMatched
  else
    .summary deleted.length ((sortedAuthors deleted).take 10)
      (if 10 < (sortedAuthors deleted).length
        then some ((sortedAuthors deleted).length - 10) else none)

/-- The items a run of the individual-deletion loop actually issues delete
calls for: everything up to and including the first hard-failing item. -/
def attemptedItems : List Message → List Message
  | [] => []
  | m :: rest =>
    if m.deleteResult = DeleteResult.httpError then [m] else m :: attemptedItems rest

/-- Whether a list of messages contains no hard-failing item. -/
def noHardFailure (l : List Message) : Bool :=
  l.all fun m => !(m.deleteResult == DeleteResult.httpError)

/-- The items the individual-deletion loop appends to `self.deleted`:
the attempted items minus a hard-failing one. -/
def appendedItems (l : List Message) : List Message :=
  (attemptedItems l).filter fun m => !(m.deleteResult == DeleteResult.httpError)

/-- The remote call a chunk's first attempt issues: the single-item delete
for a one-message chunk, the batch call otherwise. -/
def chunkCallEvent (chunk : List Message) : Event :=
  match chunk with
  | [m] => Event.delete m.id
  | _ => Event.batch (chunk.map Message.id)

/-- Whether a chunk's first attempt succeeds without raising. -/
def chunkCallOk (env : Env) (chunk : List Message) : Bool :=
  match chunk with
  | [m] => m.deleteResult == DeleteResult.ok
  | _ => env.batchOk chunk

/-- Concrete message builder for witness environments. -/
def mkMsg (i authorId : Nat) (name : String) (t : Int) (dr : DeleteResult) : Message :=
  { id := i, authorId := authorId, displayName := name, createdAt := t, deleteResult := dr }

/-- A benign three-message history (one message exactly at the age boundary
for `now = 0`), every delete call succeeding. -/
def benignEnv : Env :=
  { history :=
      [mkMsg 1 1 "alice" 0 DeleteResult.ok,
       mkMsg 2 2 "bob" (-1209600) DeleteResult.ok,
       mkMsg 3 3 "alice" (-2000000) DeleteResult.ok],
    batchOk := fun _ => true }

/-- An environment whose batch calls always fail, with a hard-failing first
message in the recent partition and an old message behind it. -/
def abortEnv : Env :=
  { history :=
      [mkMsg 1 1 "alice" 0 DeleteResult.httpError,
       mkMsg 2 2 "bob" 0 DeleteResult.ok,
       mkMsg 3 3 "carol" (-2000000) DeleteResult.ok],
    batchOk := fun _ => false }

/-- An old (20 days) message with the given delete outcome. -/
def oldMsg (i : Nat) (dr : DeleteResult) : Message :=
  mkMsg i i "user" (-1728000) dr

/-- Items 1-8 of the ten-old-messages scenario. -/
def scenarioItems : List Message :=
  [oldMsg 1 DeleteResult.ok, oldMsg 2 DeleteResult.ok, oldMsg 3 DeleteResult.ok,
   oldMsg 4 DeleteResult.ok, oldMsg 5 DeleteResult.ok, oldMsg 6 DeleteResult.ok,
   oldMsg 7 DeleteResult.ok, oldMsg 8 DeleteResult.ok]

/-- Deletion outcome with counts `{A:7, B:3, C:3}` and `B` discovered
before `C` (and both before `A`). -/
def breakdownExample : List Message :=
  [mkMsg 1 1 "B" 0 DeleteResult.ok, mkMsg 2 1 "B" 0 DeleteResult.ok,
   mkMsg 3 1 "B" 0 DeleteResult.ok, mkMsg 4 2 "C" 0 DeleteResult.ok,
   mkMsg 5 2 "C" 0 DeleteResult.ok, mkMsg 6 2 "C" 0 DeleteResult.ok,
   mkMsg 7 3 "A" 0 DeleteResult.ok, mkMsg 8 3 "A" 0 DeleteResult.ok,
   mkMsg 9 3 "A" 0 DeleteResult.ok, mkMsg 10 3 "A" 0 DeleteResult.ok,
   mkMsg 11 3 "A" 0 DeleteResult.ok, mkMsg 12 3 "A" 0 DeleteResult.ok,
   mkMsg 13 3 "A" 0 DeleteResult.ok]

/-- Two messages from two distinct authors sharing one display name. -/
def sharedNameExample : List Message :=
  [mkMsg 1 100 "X" 0 DeleteResult.ok, mkMsg 2 200 "X" 0 DeleteResult.ok]

/-- A two-message chunk whose first item hard-fails. -/
def hardChunk : List Message :=
  [mkMsg 1 1 "alice" 0 DeleteResult.httpError, mkMsg 2 2 "bob" 0 DeleteResult.ok]

/-- Invariant of the author-count accumulation in `Purge._send_result`:
entry keys are pairwise distinct, every entry's count is the number of
processed messages bearing its display name, and every processed message has
an entry. -/
def goodAcc (processed : List Message) (acc : List (String × Nat)) : Prop :=
  (acc.map Prod.fst).Nodup ∧
  (∀ p ∈ acc, p.2 = processed.countP (fun m => m.displayName == p.1)) ∧
  (∀ m ∈ processed, m.displayName ∈ acc.map Prod.fst)

/-! ## Basic lemmas about the individual-deletion loop and chunking -/

theorem deleteLoop_eq (l : List Message) :
    deleteLoop l =
      (appendedItems l,
       (attemptedItems l).map (fun m => Event.delete m.id),
       noHardFailure l) := by
  induction l with
  | nil => rfl
  | cons m rest ih =>
    cases h : m.deleteResult <;>
      simp_all [deleteLoop, delete_single, attemptedItems, appendedItems,
        noHardFailure, h]

theorem attemptedItems_isPrefix (l : List Message) : attemptedItems l <+: l := by
  induction l with
  | nil => exact List.nil_prefix
  | cons m rest ih =>
    by_cases h : m.deleteResult = DeleteResult.httpError
    · exact ⟨rest, by simp [attemptedItems, h]⟩
    · simpa [attemptedItems, h] using ih

theorem attemptedItems_sublist (l : List Message) : (attemptedItems l).Sublist l :=
  (attemptedItems_isPrefix l).sublist

theorem appendedItems_sublist (l : List Message) : (appendedItems l).Sublist l :=
  ((List.filter_sublist _).trans (attemptedItems_sublist l))

theorem attemptedItems_of_noHard (l : List Message) (h : noHardFailure l = true) :
    attemptedItems l = l := by
  induction l with
  | nil => rfl
  | cons m rest ih =>
    simp only [noHardFailure, List.all_cons, Bool.and_eq_true, Bool.not_eq_true',
      beq_eq_false_iff_ne, ne_eq] at h
    simp [attemptedItems, h.1, ih (by simpa [noHardFailure] using h.2)]

theorem chunksGo_join :
    ∀ (fuel : Nat) (l : List Message), l.length ≤ fuel → (chunksGo fuel l).flatten = l := by
  intro fuel
  induction fuel with
  | zero =>
    intro l hl
    cases l with
    | nil => rfl
    | cons a rest => simp at hl
  | succ f ih =>
    intro l hl
    cases l with
    | nil => rfl
    | cons a rest =>
      simp only [chunksGo, List.flatten_cons]
      rw [ih]
      · exact List.take_append_drop 100 (a :: rest)
      · simp only [List.length_drop, List.length_cons] at hl ⊢
        omega

theorem chunks100_join (l : List Message) : (chunks100 l).flatten = l :=
  chunksGo_join l.length l le_rfl

theorem chunksGo_mem_length :
    ∀ (fuel : Nat) (l : List Message), l.length ≤ fuel →
      ∀ c ∈ chunksGo fuel l, 1 ≤ c.length ∧ c.length ≤ 100 := by
  intro fuel
  induction fuel with
  | zero =>
    intro l hl c hc
    cases l with
    | nil => simp [chunksGo] at hc
    | cons a rest => simp at hl
  | succ f ih =>
    intro l hl c hc
    cases l with
    | nil => simp [chunksGo] at hc
    | cons a rest =>
      simp only [chunksGo, List.mem_cons] at hc
      rcases hc with hc | hc
      · subst hc
        simp only [List.length_take, List.length_cons]
        omega
      · refine ih ((a :: rest).drop 100) ?_ c hc
        simp only [List.length_drop, List.length_cons] at hl ⊢
        omega

theorem chunks100_mem_length (l : List Message) :
    ∀ c ∈ chunks100 l, 1 ≤ c.length ∧ c.length ≤ 100 :=
  chunksGo_mem_length l.length l le_rfl

/-- Closed form of one step of `_bulk_delete`'s chunk loop. -/
theorem bulkChunkLoop_cons_eq (env : Env) (chunk : List Message)
    (rest : List (List Message)) :
    bulkChunkLoop env (chunk :: rest) =
      if chunkCallOk env chunk then
        (chunk ++ (bulkChunkLoop env rest).1,
         chunkCallEvent chunk :: (bulkChunkLoop env rest).2.1,
         (bulkChunkLoop env rest).2.2)
      else if noHardFailure chunk then
        (appendedItems chunk ++ (bulkChunkLoop env rest).1,
         chunkCallEvent chunk ::
           ((attemptedItems chunk).map (fun m => Event.delete m.id) ++
             (bulkChunkLoop env rest).2.1),
         (bulkChunkLoop env rest).2.2)
      else
        (appendedItems chunk,
         chunkCallEvent chunk :: (attemptedItems chunk).map (fun m => Event.delete m.id),
         true) := by
  rcases chunk with _ | ⟨m, _ | ⟨m2, ms⟩⟩
  · simp [bulkChunkLoop, chunkCallOk, chunkCallEvent, deleteLoop_eq, appendedItems,
      attemptedItems, noHardFailure]
  · cases h : m.deleteResult <;>
      simp [bulkChunkLoop, chunkCallOk, chunkCallEvent, deleteLoop_eq, appendedItems,
        attemptedItems, noHardFailure, h]
  · by_cases hb : env.batchOk (m :: m2 :: ms) <;>
      by_cases hh : noHardFailure (m :: m2 :: ms) <;>
        simp [bulkChunkLoop, chunkCallOk, chunkCallEvent, deleteLoop_eq, hb, hh]

theorem bulkChunkLoop_batch_events (env : Env) :
    ∀ (cl : List (List Message)) (ids : List Nat),
      Event.batch ids ∈ (bulkChunkLoop env cl).2.1 →
      ∃ c ∈ cl, ids = c.map Message.id ∧ c.length ≠ 1 := by
  intro cl
  induction cl with
  | nil => intro ids h; simp [bulkChunkLoop] at h
  | cons chunk rest ih =>
    intro ids h
    rw [bulkChunkLoop_cons_eq] at h
    have hev : ∀ ids', Event.batch ids' ∈
        (attemptedItems chunk).map (fun m => Event.delete m.id) → False := by
      simp
    have hhead : chunkCallEvent chunk = Event.batch ids →
        ids = chunk.map Message.id ∧ chunk.length ≠ 1 := by
      intro hc
      rcases chunk with _ | ⟨m, _ | ⟨m2, ms⟩⟩
      · simp only [chunkCallEvent, List.map_nil, Event.batch.injEq] at hc
        exact ⟨hc.symm, by simp⟩
      · simp [chunkCallEvent] at hc
      · simp only [chunkCallEvent, Event.batch.injEq] at hc
        exact ⟨hc.symm, by simp⟩
    split at h
    · rcases List.mem_cons.mp h with h | h
      · exact ⟨chunk, List.mem_cons_self .., (hhead h.symm).1, (hhead h.symm).2⟩
      · obtain ⟨c, hc, hids⟩ := ih ids h
        exact ⟨c, List.mem_cons_of_mem _ hc, hids⟩
    · split at h
      · rcases List.mem_cons.mp h with h | h
        · exact ⟨chunk, List.mem_cons_self .., (hhead h.symm).1, (hhead h.symm).2⟩
        · rcases List.mem_append.mp h with h | h
          · exact absurd h (fun h => hev _ h)
          · obtain ⟨c, hc, hids⟩ := ih ids h
            exact ⟨c, List.mem_cons_of_mem _ hc, hids⟩
      · rcases List.mem_cons.mp h with h | h
        · exact ⟨chunk, List.mem_cons_self .., (hhead h.symm).1, (hhead h.symm).2⟩
        · exact absurd h (fun h => hev _ h)

/-! ## Claim theorems -/

/-- C1: for every purge run the cutoff is computed once as `now − 14 days`,
and the matched messages are partitioned totally and disjointly by it: a
message is bulk-eligible iff created strictly after the cutoff and
individual-only iff created at or before it (so a message exactly at the
boundary is not bulk-eligible), and each partition is a sublist of the
matched messages, preserving scan order. -/
theorem purge_age_partition (env : Env) (now : Int) (limit : Nat)
    (check : Message → Bool) :
    (∀ m ∈ matchedMessages env limit check,
      (m ∈ bulkPartition (now - BULK_DELETE_LIMIT) (matchedMessages env limit check) ↔
          now - BULK_DELETE_LIMIT < m.createdAt) ∧
      (m ∈ oldPartition (now - BULK_DELETE_LIMIT) (matchedMessages env limit check) ↔
          m.createdAt ≤ now - BULK_DELETE_LIMIT) ∧
      (m ∈ bulkPartition (now - BULK_DELETE_LIMIT) (matchedMessages env limit check) ↔
          ¬ m ∈ oldPartition (now - BULK_DELETE_LIMIT) (matchedMessages env limit check))) ∧
    (bulkPartition (now - BULK_DELETE_LIMIT) (matchedMessages env limit check)).Sublist
      (matchedMessages env limit check) ∧
    (oldPartition (now - BULK_DELETE_LIMIT) (matchedMessages env limit check)).Sublist
      (matchedMessages env limit check) := by
  refine ⟨fun m hm => ?_, List.filter_sublist _, List.filter_sublist _⟩
  simp only [bulkPartition, oldPartition, List.mem_filter, hm, true_and,
    decide_eq_true_eq]
  omega

theorem purge_age_partition_witness :
    mkMsg 2 2 "bob" (-1209600) DeleteResult.ok ∈
      matchedMessages benignEnv 5 (fun _ => true) ∧
    (mkMsg 2 2 "bob" (-1209600) DeleteResult.ok ∈
        oldPartition (0 - BULK_DELETE_LIMIT) (matchedMessages benignEnv 5 (fun _ => true)) ↔
      (mkMsg 2 2 "bob" (-1209600) DeleteResult.ok).createdAt ≤ 0 - BULK_DELETE_LIMIT) :=
  ⟨by decide,
    ((purge_age_partition benignEnv 0 5 (fun _ => true)).1 _ (by decide)).2.1⟩

/-- C2: the Batch Deleter splits the bulk-eligible sequence into consecutive
chunks of at most 100 in order; no batch call carries more than 100 items
(and in fact every batch call carries at least 2), and a single-message
sequence is handled by the single-item delete path, never the batch call. -/
theorem bulk_chunk_bounds (env : Env) (messages : List Message) :
    (chunks100 messages).flatten = messages ∧
    (∀ c ∈ chunks100 messages, 1 ≤ c.length ∧ c.length ≤ 100) ∧
    (∀ ids, Event.batch ids ∈ (bulk_delete env messages).2.1 →
      2 ≤ ids.length ∧ ids.length ≤ 100) ∧
    (∀ m : Message,
      (∀ ids, Event.batch ids ∉ (bulk_delete env [m]).2.1) ∧
      Event.delete m.id ∈ (bulk_delete env [m]).2.1) := by
  refine ⟨chunks100_join messages, chunks100_mem_length messages, ?_, ?_⟩
  · intro ids h
    obtain ⟨c, hc, hids, hne⟩ := bulkChunkLoop_batch_events env _ ids h
    obtain ⟨h1, h100⟩ := chunks100_mem_length messages c hc
    subst hids
    simp only [List.length_map]
    omega
  · intro m
    have hch : chunks100 [m] = [[m]] := rfl
    constructor
    · intro ids hmem
      obtain ⟨c, hc, hids, hne⟩ := bulkChunkLoop_batch_events env _ ids hmem
      rw [hch] at hc
      simp only [List.mem_singleton] at hc
      subst hc
      simp at hne
    · rw [bulk_delete, hch, bulkChunkLoop_cons_eq]
      have : chunkCallEvent [m] = Event.delete m.id := rfl
      split <;> simp [this]
      split <;> simp

theorem bulk_chunk_bounds_witness :
    Event.batch [1, 2] ∈
      (bulk_delete benignEnv
        [mkMsg 1 1 "alice" 0 DeleteResult.ok, mkMsg 2 2 "bob" 0 DeleteResult.ok]).2.1 ∧
    2 ≤ ([1, 2] : List Nat).length ∧ ([1, 2] : List Nat).length ≤ 100 :=
  ⟨by decide,
    (bulk_chunk_bounds benignEnv
      [mkMsg 1 1 "alice" 0 DeleteResult.ok, mkMsg 2 2 "bob" 0 DeleteResult.ok]).2.2.1
      [1, 2] (by decide)⟩

/-- C7: a limit below 1 or above 2000 is rejected before anything happens:
no confirmation prompt, no history read, no delete call, and an empty
deletion outcome. -/
theorem validate_rejects_bad_limit (env : Env) (now : Int) (limit : Int)
    (check : Message → Bool) (confirmAnswer : Bool) (confirmThreshold : Int)
    (h : limit < 1 ∨ 2000 < limit) :
    validate_and_purge env now limit check confirmAnswer confirmThreshold =
      (PurgeReply.validationError, []) := by
  simp only [validate_and_purge, if_pos h]

theorem validate_rejects_bad_limit_witness :
    ((3000 : Int) < 1 ∨ (2000 : Int) < 3000) ∧
    validate_and_purge benignEnv 0 3000 (fun _ => true) true 100 =
      (PurgeReply.validationError, []) :=
  ⟨by decide,
    validate_rejects_bad_limit benignEnv 0 3000 (fun _ => true) true 100 (by decide)⟩

/-- C3 counterexample: a two-message chunk whose batch call fails and whose
first item hard-fails.  The batch call is issued and fails, the fallback
attempts the first item, which hard-fails, and the second item of that very
chunk is never attempted — contradicting the claim that every item of a
failed chunk is attempted individually. -/
theorem bulk_fallback_counterexample :
    abortEnv.batchOk hardChunk = false ∧
    Event.batch [1, 2] ∈ (bulk_delete abortEnv hardChunk).2.1 ∧
    Event.delete 2 ∉ (bulk_delete abortEnv hardChunk).2.1 := by
  decide

/-- C3 (amended): for every chunk whose batch call fails, the chunk's items
are attempted individually in the chunk's original order up to and including
the first hard failure — all of them when no hard failure occurs — and if a
hard failure occurs during this fallback, no subsequent chunk is attempted. -/
theorem bulk_fallback_until_hard (env : Env) (m1 m2 : Message)
    (ms : List Message) (rest : List (List Message))
    (hb : env.batchOk (m1 :: m2 :: ms) = false) :
    (bulkChunkLoop env ((m1 :: m2 :: ms) :: rest)).2.1 =
      Event.batch ((m1 :: m2 :: ms).map Message.id) ::
        ((attemptedItems (m1 :: m2 :: ms)).map (fun m => Event.delete m.id) ++
          (if noHardFailure (m1 :: m2 :: ms) then (bulkChunkLoop env rest).2.1
            else [])) ∧
    attemptedItems (m1 :: m2 :: ms) <+: (m1 :: m2 :: ms) ∧
    (noHardFailure (m1 :: m2 :: ms) = true →
      attemptedItems (m1 :: m2 :: ms) = m1 :: m2 :: ms) := by
  refine ⟨?_, attemptedItems_isPrefix _, attemptedItems_of_noHard _⟩
  have hok : chunkCallOk env (m1 :: m2 :: ms) = false := by
    simp [chunkCallOk, hb]
  rw [bulkChunkLoop_cons_eq, hok]
  by_cases hh : noHardFailure (m1 :: m2 :: ms) <;>
    simp [hh, chunkCallEvent]

theorem bulk_fallback_until_hard_witness :
    abortEnv.batchOk hardChunk = false ∧
    (bulkChunkLoop abortEnv [hardChunk]).2.1 =
      [Event.batch [1, 2], Event.delete 1] :=
  ⟨by decide, by
    unfold hardChunk
    rw [(bulk_fallback_until_hard abortEnv
      (mkMsg 1 1 "alice" 0 DeleteResult.httpError)
      (mkMsg 2 2 "bob" 0 DeleteResult.ok) [] [] (by decide)).1]
    decide⟩

/-- C4: the Individual Deleter processes items strictly one at a time in
order; items whose delete succeeds or reports not-found are appended to the
outcome and processing continues, while a hard error stops the loop
immediately: the failing item is not appended, items after it are never
attempted, and the outcome accumulated so far is returned.  Instantiated at
ten old items with the ninth hard-failing, the outcome is exactly items 1-8
and item 10 is never attempted (see the witness). -/
theorem individual_hard_stop (pre : List Message) (bad : Message)
    (post : List Message)
    (hpre : ∀ x ∈ pre, x.deleteResult ≠ DeleteResult.httpError)
    (hbad : bad.deleteResult = DeleteResult.httpError) :
    deleteLoop (pre ++ bad :: post) =
      (pre, (pre.map fun m => Event.delete m.id) ++ [Event.delete bad.id],
       false) := by
  induction pre with
  | nil => simp [deleteLoop, delete_single, hbad]
  | cons m pre' ih =>
    have hm : m.deleteResult ≠ DeleteResult.httpError := hpre m (by simp)
    have ih' := ih fun x hx => hpre x (by simp [hx])
    cases h : m.deleteResult
    · simp [deleteLoop, delete_single, h, ih']
    · simp [deleteLoop, delete_single, h, ih']
    · exact absurd h hm

theorem individual_hard_stop_witness :
    (∀ x ∈ scenarioItems, x.deleteResult ≠ DeleteResult.httpError) ∧
    deleteLoop
        (scenarioItems ++
          oldMsg 9 DeleteResult.httpError :: [oldMsg 10 DeleteResult.ok]) =
      (scenarioItems,
       (scenarioItems.map fun m => Event.delete m.id) ++
         [Event.delete (oldMsg 9 DeleteResult.httpError).id],
       false) :=
  ⟨by decide,
    individual_hard_stop scenarioItems (oldMsg 9 DeleteResult.httpError)
      [oldMsg 10 DeleteResult.ok] (by decide) (by decide)⟩

/-- C5: even when the Batch Deleter signals a hard abort on the bulk-eligible
partition, `purge` still runs the individual loop on the whole old partition:
the outcome and trace always extend the bulk phase with the complete
old-partition phase, so a hard failure in one age partition does not prevent
deletion attempts in the other. -/
theorem old_partition_runs_after_abort (env : Env) (now : Int) (limit : Nat)
    (check : Message → Bool)
    (hne : (matchedMessages env limit check).isEmpty = false)
    (_habort : (bulk_delete env (bulkPartition (now - BULK_DELETE_LIMIT)
      (matchedMessages env limit check))).2.2 = true) :
    purge env now limit check =
      ((bulk_delete env (bulkPartition (now - BULK_DELETE_LIMIT)
          (matchedMessages env limit check))).1 ++
        (deleteLoop (oldPartition (now - BULK_DELETE_LIMIT)
          (matchedMessages env limit check))).1,
       Event.historyFetch (scan_limit limit) ::
        ((bulk_delete env (bulkPartition (now - BULK_DELETE_LIMIT)
            (matchedMessages env limit check))).2.1 ++
          (deleteLoop (oldPartition (now - BULK_DELETE_LIMIT)
            (matchedMessages env limit check))).2.1)) := by
  simp only [purge, hne, Bool.false_eq_true, if_false]

theorem scanLoop_acc (check : Message → Bool) (limit : Nat) :
    ∀ (hist : List Message) (b : Nat) (acc : List Message) (ex : Nat),
      ∃ s, (scanLoop check limit hist b acc ex).1 = acc ++ s ∧ s.Sublist hist := by
  intro hist
  induction hist with
  | nil =>
    intro b acc ex
    exact ⟨[], by simp [scanLoop], List.nil_sublist _⟩
  | cons m rest ih =>
    intro b acc ex
    cases b with
    | zero => exact ⟨[], by simp [scanLoop], List.nil_sublist _⟩
    | succ b' =>
      by_cases hc : check m
      · by_cases hl : limit ≤ acc.length + 1
        · exact ⟨[m], by simp [scanLoop, hc, hl], by simp⟩
        · obtain ⟨s, hs, hsub⟩ := ih b' (acc ++ [m]) (ex + 1)
          refine ⟨m :: s, ?_, hsub.cons₂ m⟩
          simp only [scanLoop, hc, if_true, hl, if_false]
          rw [hs, List.append_assoc, List.singleton_append]
      · obtain ⟨s, hs, hsub⟩ := ih b' acc (ex + 1)
        exact ⟨s, by simp [scanLoop, hc, hs], hsub.cons m⟩

theorem matchedMessages_sublist (env : Env) (limit : Nat)
    (check : Message → Bool) :
    (matchedMessages env limit check).Sublist env.history := by
  obtain ⟨s, hs, hsub⟩ :=
    scanLoop_acc check limit env.history (scan_limit limit) [] 0
  rw [matchedMessages, hs]
  simpa using hsub

theorem scanLoop_length_le (check : Message → Bool) (limit : Nat) :
    ∀ (hist : List Message) (b : Nat) (acc : List Message) (ex : Nat),
      acc.length < limit →
      (scanLoop check limit hist b acc ex).1.length ≤ limit := by
  intro hist
  induction hist with
  | nil => intro b acc ex h; simpa [scanLoop] using h.le
  | cons m rest ih =>
    intro b acc ex h
    cases b with
    | zero => simpa [scanLoop] using h.le
    | succ b' =>
      by_cases hc : check m
      · by_cases hl : limit ≤ acc.length + 1
        · simp only [scanLoop, hc, if_true, hl]
          simp only [List.length_append, List.length_singleton]
          omega
        · have := ih b' (acc ++ [m]) (ex + 1) (by simp; omega)
          simpa [scanLoop, hc, hl] using this
      · have := ih b' acc (ex + 1) h
        simpa [scanLoop, hc] using this

theorem matchedMessages_length_le (env : Env) (limit : Nat)
    (check : Message → Bool) :
    (matchedMessages env limit check).length ≤ limit := by
  rcases Nat.eq_zero_or_pos limit with h | h
  · subst h
    have hsl : scan_limit 0 = 0 := rfl
    rw [matchedMessages, hsl]
    cases env.history <;> simp [scanLoop]
  · exact scanLoop_length_le check limit env.history _ [] 0 (by simpa using h)

theorem scanLoop_examined_le (check : Message → Bool) (limit : Nat) :
    ∀ (hist : List Message) (b : Nat) (acc : List Message) (ex : Nat),
      (scanLoop check limit hist b acc ex).2 ≤ ex + b := by
  intro hist
  induction hist with
  | nil => intro b acc ex; simp [scanLoop]
  | cons m rest ih =>
    intro b acc ex
    cases b with
    | zero => simp [scanLoop]
    | succ b' =>
      simp only [scanLoop]
      by_cases hc : check m
      · by_cases hl : limit ≤ acc.length + 1
        · rw [if_pos hc, if_pos hl]
          omega
        · have := ih b' (acc ++ [m]) (ex + 1)
          rw [if_pos hc, if_neg hl]
          omega
      · have := ih b' acc (ex + 1)
        rw [if_neg hc]
        omega

theorem scanLoop_examined_full (check : Message → Bool) (limit : Nat) :
    ∀ (hist : List Message) (b : Nat) (acc : List Message) (ex : Nat),
      (scanLoop check limit hist b acc ex).1.length < limit →
      (scanLoop check limit hist b acc ex).2 = ex + min b hist.length := by
  intro hist
  induction hist with
  | nil => intro b acc ex _; simp [scanLoop]
  | cons m rest ih =>
    intro b acc ex hlt
    cases b with
    | zero => simp [scanLoop]
    | succ b' =>
      simp only [scanLoop] at hlt ⊢
      by_cases hc : check m
      · by_cases hl : limit ≤ acc.length + 1
        · exfalso
          rw [if_pos hc, if_pos hl] at hlt
          simp only [List.length_append, List.length_singleton] at hlt
          omega
        · rw [if_pos hc, if_neg hl] at hlt ⊢
          rw [ih b' (acc ++ [m]) (ex + 1) hlt]
          simp only [List.length_cons, Nat.succ_min_succ]
          omega
      · rw [if_neg hc] at hlt ⊢
        rw [ih b' acc (ex + 1) hlt]
        simp only [List.length_cons, Nat.succ_min_succ]
        omega

theorem scanLoop_examined_ge (check : Message → Bool) (limit : Nat) :
    ∀ (hist : List Message) (b : Nat) (acc : List Message) (ex : Nat),
      ex ≤ (scanLoop check limit hist b acc ex).2 := by
  intro hist
  induction hist with
  | nil => intro b acc ex; simp [scanLoop]
  | cons m rest ih =>
    intro b acc ex
    cases b with
    | zero => simp [scanLoop]
    | succ b' =>
      simp only [scanLoop]
      by_cases hc : check m
      · by_cases hl : limit ≤ acc.length + 1
        · rw [if_pos hc, if_pos hl]
          omega
        · rw [if_pos hc, if_neg hl]
          have := ih b' (acc ++ [m]) (ex + 1)
          omega
      · rw [if_neg hc]
        have := ih b' acc (ex + 1)
        omega

theorem scanLoop_take (check : Message → Bool) (limit : Nat) :
    ∀ (hist : List Message) (b : Nat) (acc : List Message) (ex : Nat),
      (scanLoop check limit hist b acc ex).1 =
        acc ++
          (hist.take ((scanLoop check limit hist b acc ex).2 - ex)).filter check := by
  intro hist
  induction hist with
  | nil => intro b acc ex; simp [scanLoop]
  | cons m rest ih =>
    intro b acc ex
    cases b with
    | zero => simp [scanLoop]
    | succ b' =>
      simp only [scanLoop]
      by_cases hc : check m
      · by_cases hl : limit ≤ acc.length + 1
        · rw [if_pos hc, if_pos hl]
          simp [hc, Nat.add_sub_cancel_left, List.take_succ_cons]
        · rw [if_pos hc, if_neg hl]
          have hge := scanLoop_examined_ge check limit rest b' (acc ++ [m]) (ex + 1)
          have hk : (scanLoop check limit rest b' (acc ++ [m]) (ex + 1)).2 - ex =
              ((scanLoop check limit rest b' (acc ++ [m]) (ex + 1)).2 - (ex + 1)) + 1 := by
            omega
          rw [ih b' (acc ++ [m]) (ex + 1), hk, List.take_succ_cons]
          simp [hc, List.append_assoc]
      · rw [if_neg hc]
        have hge := scanLoop_examined_ge check limit rest b' acc (ex + 1)
        have hk : (scanLoop check limit rest b' acc (ex + 1)).2 - ex =
            ((scanLoop check limit rest b' acc (ex + 1)).2 - (ex + 1)) + 1 := by
          omega
        rw [ih b' acc (ex + 1), hk, List.take_succ_cons]
        simp [hc]

theorem scanLoop_minimal (check : Message → Bool) (limit : Nat) :
    ∀ (hist : List Message) (b : Nat) (acc : List Message) (ex : Nat),
      acc.length < limit ∨ b = 0 →
      ∀ k, k < (scanLoop check limit hist b acc ex).2 - ex →
        acc.length + ((hist.take k).filter check).length < limit := by
  intro hist
  induction hist with
  | nil =>
    intro b acc ex _ k hk
    simp [scanLoop] at hk
  | cons m rest ih =>
    intro b acc ex hinv k hk
    cases b with
    | zero => simp [scanLoop] at hk
    | succ b' =>
      have hacc : acc.length < limit := by
        rcases hinv with h | h
        · exact h
        · exact absurd h (Nat.succ_ne_zero b')
      simp only [scanLoop] at hk
      by_cases hc : check m
      · by_cases hl : limit ≤ acc.length + 1
        · rw [if_pos hc, if_pos hl] at hk
          have hk0 : k = 0 := by omega
          subst hk0
          simpa using hacc
        · rw [if_pos hc, if_neg hl] at hk
          cases k with
          | zero => simpa using hacc
          | succ j =>
            have hij := ih b' (acc ++ [m]) (ex + 1)
              (Or.inl (by simp only [List.length_append, List.length_singleton]; omega))
              j (by omega)
            rw [List.take_succ_cons]
            simp only [List.length_append, List.length_singleton] at hij
            simp only [List.filter_cons, hc, if_true, List.length_cons]
            omega
      · rw [if_neg hc] at hk
        cases k with
        | zero => simpa using hacc
        | succ j =>
          have hij := ih b' acc (ex + 1) (Or.inl hacc) j (by omega)
          rw [List.take_succ_cons]
          simp only [List.filter_cons, hc, Bool.false_eq_true, if_false]
          exact hij

/-- C8: every purge run examines at most `min(limit × 5, 5000)` raw history
items and collects at most `limit` matched messages; the matched messages
are exactly the predicate-satisfying items of the examined prefix of the
history; whenever fewer than `limit` messages matched, the scan consumed
everything the ceiling and the stream allowed; and every strictly shorter
examined prefix contains fewer than `limit` matches, so scanning stops as
soon as the `limit`-th match is examined — whichever of the two stop
conditions comes first. -/
theorem purge_scan_bounds (env : Env) (limit : Nat) (check : Message → Bool) :
    scan_limit limit = min (limit * 5) 5000 ∧
    examinedCount env limit check ≤ scan_limit limit ∧
    (matchedMessages env limit check).length ≤ limit ∧
    matchedMessages env limit check =
      (env.history.take (examinedCount env limit check)).filter check ∧
    ((matchedMessages env limit check).length < limit →
      examinedCount env limit check =
        min (scan_limit limit) env.history.length) ∧
    (∀ k, k < examinedCount env limit check →
      ((env.history.take k).filter check).length < limit) := by
  refine ⟨rfl, ?_, matchedMessages_length_le env limit check, ?_, ?_, ?_⟩
  · simpa using
      scanLoop_examined_le check limit env.history (scan_limit limit) [] 0
  · have := scanLoop_take check limit env.history (scan_limit limit) [] 0
    simpa [matchedMessages, examinedCount] using this
  · intro h
    simpa using
      scanLoop_examined_full check limit env.history (scan_limit limit) [] 0 h
  · intro k hk
    rw [examinedCount] at hk
    rcases Nat.eq_zero_or_pos limit with h0 | h0
    · exfalso
      have hle := scanLoop_examined_le check limit env.history (scan_limit limit) [] 0
      subst h0
      simp only [scan_limit, Nat.zero_mul, Nat.zero_min, Nat.add_zero] at hle hk
      omega
    · have := scanLoop_minimal check limit env.history (scan_limit limit) [] 0
        (Or.inl (by simpa using h0)) k (by simpa using hk)
      simpa using this

theorem purge_scan_bounds_witness :
    examinedCount benignEnv 2 (fun _ => true) = 2 ∧
    (1 : Nat) < examinedCount benignEnv 2 (fun _ => true) ∧
    ((benignEnv.history.take 1).filter (fun _ => true)).length < 2 ∧
    (matchedMessages benignEnv 5 (fun _ => true)).length < 5 ∧
    examinedCount benignEnv 5 (fun _ => true) =
      min (scan_limit 5) benignEnv.history.length :=
  ⟨by decide, by decide,
    (purge_scan_bounds benignEnv 2 (fun _ => true)).2.2.2.2.2 1 (by decide),
    by decide,
    (purge_scan_bounds benignEnv 5 (fun _ => true)).2.2.2.2.1 (by decide)⟩

theorem deleteLoop_deleted_sublist (l : List Message) :
    (deleteLoop l).1.Sublist l := by
  rw [deleteLoop_eq]
  exact appendedItems_sublist l

theorem bulkChunkLoop_deleted_sublist (env : Env) :
    ∀ cl : List (List Message), (bulkChunkLoop env cl).1.Sublist cl.flatten := by
  intro cl
  induction cl with
  | nil => simp [bulkChunkLoop]
  | cons chunk rest ih =>
    rw [bulkChunkLoop_cons_eq, List.flatten_cons]
    by_cases h1 : chunkCallOk env chunk
    · simp only [h1, if_true]
      exact (List.Sublist.refl chunk).append ih
    · by_cases h2 : noHardFailure chunk
      · simp only [h1, Bool.false_eq_true, if_false, h2, if_true]
        exact (appendedItems_sublist chunk).append ih
      · simp only [h1, Bool.false_eq_true, if_false, h2]
        exact (appendedItems_sublist chunk).trans (List.sublist_append_left _ _)

theorem purge_deleted_decomp (env : Env) (now : Int) (limit : Nat)
    (check : Message → Bool) :
    (purge env now limit check).1 =
      (bulk_delete env (bulkPartition (now - BULK_DELETE_LIMIT)
        (matchedMessages env limit check))).1 ++
      (deleteLoop (oldPartition (now - BULK_DELETE_LIMIT)
        (matchedMessages env limit check))).1 := by
  by_cases hne : (matchedMessages env limit check).isEmpty
  · have hm : matchedMessages env limit check = [] := by
      simpa [List.isEmpty_iff] using hne
    simp [purge, hne, hm, bulkPartition, oldPartition, bulk_delete, chunks100,
      chunksGo, bulkChunkLoop, deleteLoop]
  · have hne' : (matchedMessages env limit check).isEmpty = false := by
      simpa using hne
    simp only [purge, hne', Bool.false_eq_true, if_false]

/-- C6: the deletion outcome of a purge run over a history with pairwise
distinct message ids is duplicate-free, and it is exactly the bulk-phase
outcome followed by the old-phase outcome, each a sublist of its own age
partition — so items appended by an earlier phase survive later failures and
the order is the order in which deletions completed. -/
theorem deletion_outcome_invariants (env : Env) (now : Int) (limit : Nat)
    (check : Message → Bool)
    (hnd : (env.history.map Message.id).Nodup) :
    ((purge env now limit check).1.map Message.id).Nodup ∧
    (purge env now limit check).1 =
      (bulk_delete env (bulkPartition (now - BULK_DELETE_LIMIT)
        (matchedMessages env limit check))).1 ++
      (deleteLoop (oldPartition (now - BULK_DELETE_LIMIT)
        (matchedMessages env limit check))).1 ∧
    (bulk_delete env (bulkPartition (now - BULK_DELETE_LIMIT)
        (matchedMessages env limit check))).1.Sublist
      (bulkPartition (now - BULK_DELETE_LIMIT)
        (matchedMessages env limit check)) ∧
    (deleteLoop (oldPartition (now - BULK_DELETE_LIMIT)
        (matchedMessages env limit check))).1.Sublist
      (oldPartition (now - BULK_DELETE_LIMIT)
        (matchedMessages env limit check)) := by
  have hmsgs : (matchedMessages env limit check).Sublist env.history :=
    matchedMessages_sublist env limit check
  have hnm : ((matchedMessages env limit check).map Message.id).Nodup :=
    (hmsgs.map Message.id).nodup hnd
  have hbulk_sub : (bulkPartition (now - BULK_DELETE_LIMIT)
      (matchedMessages env limit check)).Sublist
      (matchedMessages env limit check) := List.filter_sublist _
  have hold_sub : (oldPartition (now - BULK_DELETE_LIMIT)
      (matchedMessages env limit check)).Sublist
      (matchedMessages env limit check) := List.filter_sublist _
  have hbD : (bulk_delete env (bulkPartition (now - BULK_DELETE_LIMIT)
      (matchedMessages env limit check))).1.Sublist
      (bulkPartition (now - BULK_DELETE_LIMIT)
        (matchedMessages env limit check)) := by
    have := bulkChunkLoop_deleted_sublist env
      (chunks100 (bulkPartition (now - BULK_DELETE_LIMIT)
        (matchedMessages env limit check)))
    rwa [chunks100_join] at this
  have hoD := deleteLoop_deleted_sublist
    (oldPartition (now - BULK_DELETE_LIMIT) (matchedMessages env limit check))
  refine ⟨?_, purge_deleted_decomp env now limit check, hbD, hoD⟩
  rw [purge_deleted_decomp env now limit check, List.map_append]
  have nbD : ((bulk_delete env (bulkPartition (now - BULK_DELETE_LIMIT)
      (matchedMessages env limit check))).1.map Message.id).Nodup :=
    (((hbD.trans hbulk_sub)).map Message.id).nodup hnm
  have noD : ((deleteLoop (oldPartition (now - BULK_DELETE_LIMIT)
      (matchedMessages env limit check))).1.map Message.id).Nodup :=
    (((hoD.trans hold_sub)).map Message.id).nodup hnm
  refine nbD.append noD ?_
  intro a ha hb
  obtain ⟨m, hm, rfl⟩ := List.mem_map.mp ha
  obtain ⟨m', hm', hid⟩ := List.mem_map.mp hb
  have hmB := hbD.subset hm
  have hmO := hoD.subset hm'
  have hmM : m ∈ matchedMessages env limit check := hbulk_sub.subset hmB
  have hmM' : m' ∈ matchedMessages env limit check := hold_sub.subset hmO
  have heq : m' = m :=
    List.inj_on_of_nodup_map hnm hmM' hmM hid
  subst heq
  simp only [bulkPartition, oldPartition, List.mem_filter,
    decide_eq_true_eq] at hmB hmO
  omega

theorem deletion_outcome_invariants_witness :
    (benignEnv.history.map Message.id).Nodup ∧
    ((purge benignEnv 0 5 (fun _ => true)).1.map Message.id).Nodup :=
  ⟨by decide,
    (deletion_outcome_invariants benignEnv 0 5 (fun _ => true) (by decide)).1⟩

theorem mem_insertDesc (x y : String × Nat) (l : List (String × Nat)) :
    y ∈ insertDesc x l ↔ y = x ∨ y ∈ l := by
  induction l with
  | nil => simp [insertDesc]
  | cons z rest ih =>
    by_cases h : z.2 ≤ x.2
    · rw [insertDesc, if_pos h]
      simp
    · rw [insertDesc, if_neg h]
      simp only [List.mem_cons, ih]
      tauto

theorem pairwise_insertDesc (x : String × Nat) (l : List (String × Nat))
    (h : l.Pairwise (fun a b => b.2 ≤ a.2)) :
    (insertDesc x l).Pairwise (fun a b => b.2 ≤ a.2) := by
  induction l with
  | nil => simp [insertDesc]
  | cons z rest ih =>
    rcases List.pairwise_cons.mp h with ⟨hz, hrest⟩
    by_cases hle : z.2 ≤ x.2
    · rw [insertDesc, if_pos hle]
      refine List.pairwise_cons.mpr ⟨?_, h⟩
      intro b hb
      rcases List.mem_cons.mp hb with rfl | hb
      · exact hle
      · exact le_trans (hz b hb) hle
    · rw [insertDesc, if_neg hle]
      refine List.pairwise_cons.mpr ⟨?_, ih hrest⟩
      intro b hb
      rcases (mem_insertDesc x b rest).mp hb with rfl | hb
      · omega
      · exact hz b hb

theorem sortDesc_pairwise (l : List (String × Nat)) :
    (sortDesc l).Pairwise (fun a b => b.2 ≤ a.2) := by
  induction l with
  | nil => simp [sortDesc]
  | cons x rest ih =>
    rw [sortDesc]
    exact pairwise_insertDesc x _ ih

theorem filter_insertDesc (x : String × Nat) (l : List (String × Nat)) (k : Nat) :
    (insertDesc x l).filter (fun p => p.2 == k) =
      if x.2 == k then x :: l.filter (fun p => p.2 == k)
      else l.filter (fun p => p.2 == k) := by
  induction l with
  | nil =>
    rw [insertDesc]
    by_cases hx : x.2 = k <;> simp [List.filter_cons, hx]
  | cons z rest ih =>
    by_cases hle : z.2 ≤ x.2
    · rw [insertDesc, if_pos hle, List.filter_cons]
    · rw [insertDesc, if_neg hle, List.filter_cons, List.filter_cons, ih]
      by_cases hx : x.2 = k
      · have hz : ¬z.2 = k := by omega
        simp [hx, hz]
      · by_cases hz : z.2 = k <;> simp [hx, hz]

theorem filter_sortDesc (l : List (String × Nat)) (k : Nat) :
    (sortDesc l).filter (fun p => p.2 == k) = l.filter (fun p => p.2 == k) := by
  induction l with
  | nil => rfl
  | cons x rest ih =>
    rw [sortDesc, filter_insertDesc, ih, List.filter_cons]

/-- C9: for a non-empty outcome the report carries the removed count and the
author breakdown: the entries are the count map sorted descending by count
with ties kept in first-seen order (witnessed both by the stability equation
and by the `{A:7, B:3, C:3}` example with `B` discovered before `C`),
truncated to at most 10, with the exact number of omitted entries noted when
more than 10 names occur; an empty outcome yields the distinct
nothing-matched message. -/
theorem send_result_breakdown (deleted : List Message) (h : deleted ≠ []) :
    send_result deleted =
      ResultMsg.summary deleted.length ((sortedAuthors deleted).take 10)
        (if 10 < (sortedAuthors deleted).length
          then some ((sortedAuthors deleted).length - 10) else none) ∧
    ((sortedAuthors deleted).take 10).length ≤ 10 ∧
    (sortedAuthors deleted).Pairwise (fun a b => b.2 ≤ a.2) ∧
    (∀ k : Nat, (sortedAuthors deleted).filter (fun p => p.2 == k) =
      (authorCounts deleted).filter (fun p => p.2 == k)) ∧
    sortedAuthors breakdownExample = [("A", 7), ("B", 3), ("C", 3)] ∧
    send_result [] = ResultMsg.nothingMatched := by
  refine ⟨?_, ?_, sortDesc_pairwise _, fun k => filter_sortDesc _ k,
    by decide, rfl⟩
  · rw [send_result, if_neg (by simpa [List.length_eq_zero] using h)]
  · exact List.length_take_le 10 (sortedAuthors deleted)

theorem send_result_breakdown_witness :
    breakdownExample ≠ [] ∧
    send_result breakdownExample =
      ResultMsg.summary 13 [("A", 7), ("B", 3), ("C", 3)] none :=
  ⟨by decide, by exact (send_result_breakdown breakdownExample (by decide)).1⟩

theorem bumpAuthor_fst (acc : List (String × Nat)) (name : String) :
    (bumpAuthor acc name).map Prod.fst =
      if name ∈ acc.map Prod.fst then acc.map Prod.fst
      else acc.map Prod.fst ++ [name] := by
  induction acc with
  | nil => simp [bumpAuthor]
  | cons p rest ih =>
    obtain ⟨n, c⟩ := p
    by_cases h : n = name
    · subst h
      simp [bumpAuthor]
    · have h' : name ≠ n := fun hh => h hh.symm
      by_cases h2 : name ∈ rest.map Prod.fst <;>
        simp [bumpAuthor, h, h', ih, h2]

theorem bumpAuthor_fst_nodup (acc : List (String × Nat)) (name : String)
    (h : (acc.map Prod.fst).Nodup) :
    ((bumpAuthor acc name).map Prod.fst).Nodup := by
  rw [bumpAuthor_fst]
  by_cases h2 : name ∈ acc.map Prod.fst
  · simpa [h2] using h
  · rw [if_neg h2]
    refine h.append (List.nodup_singleton name) ?_
    intro a ha hb
    rcases List.mem_singleton.mp hb with rfl
    exact h2 ha

theorem bumpAuthor_counts (f : String → Nat) (name : String) :
    ∀ (acc : List (String × Nat)), (acc.map Prod.fst).Nodup →
      (∀ p ∈ acc, p.2 = f p.1) →
      (name ∉ acc.map Prod.fst → f name = 0) →
      ∀ p ∈ bumpAuthor acc name,
        p.2 = f p.1 + (if p.1 = name then 1 else 0) := by
  intro acc
  induction acc with
  | nil =>
    intro _ _ h0 p hp
    simp only [bumpAuthor, List.mem_singleton] at hp
    subst hp
    simp [h0 (by simp)]
  | cons q rest ih =>
    intro hnd hcnt h0 p hp
    obtain ⟨n, c⟩ := q
    simp only [List.map_cons, List.nodup_cons] at hnd
    by_cases h : n = name
    · subst h
      rw [bumpAuthor, if_pos rfl] at hp
      rcases List.mem_cons.mp hp with rfl | hp
      · have hc := hcnt (n, c) (List.mem_cons_self ..)
        simp at hc
        simp [hc]
      · have hne : p.1 ≠ n := by
          intro hh
          exact hnd.1 (hh ▸ List.mem_map_of_mem Prod.fst hp)
        simp [hne, hcnt p (List.mem_cons_of_mem _ hp)]
    · rw [bumpAuthor, if_neg h] at hp
      rcases List.mem_cons.mp hp with rfl | hp
      · have hfst : ((n, c) : String × Nat).1 ≠ name := h
        have hcn := hcnt (n, c) (List.mem_cons_self ..)
        simp at hcn
        simp [hfst, hcn]
      · refine ih hnd.2 (fun r hr => hcnt r (List.mem_cons_of_mem _ hr))
          (fun hnm => h0 ?_) p hp
        simp only [List.map_cons, List.mem_cons, not_or]
        exact ⟨fun hh => h hh.symm, hnm⟩

theorem goodAcc_step (processed : List Message) (acc : List (String × Nat))
    (msg : Message) (h : goodAcc processed acc) :
    goodAcc (processed ++ [msg]) (bumpAuthor acc msg.displayName) := by
  obtain ⟨hnd, hcnt, hmem⟩ := h
  refine ⟨bumpAuthor_fst_nodup acc _ hnd, ?_, ?_⟩
  · intro p hp
    have h0 : msg.displayName ∉ acc.map Prod.fst →
        processed.countP (fun m => m.displayName == msg.displayName) = 0 := by
      intro hnm
      rw [List.countP_eq_zero]
      intro m hm
      simp only [beq_iff_eq]
      exact fun hd => hnm (hd ▸ hmem m hm)
    have hmain := bumpAuthor_counts
      (fun s => processed.countP (fun m => m.displayName == s))
      msg.displayName acc hnd hcnt h0 p hp
    have hsing : List.countP (fun m => m.displayName == p.1) [msg] =
        if p.1 = msg.displayName then 1 else 0 := by
      rw [List.countP_cons]
      by_cases hh : p.1 = msg.displayName
      · simp [hh]
      · have hne : (msg.displayName == p.1) = false := by
          simp only [beq_eq_false_iff_ne, ne_eq]
          exact fun hd => hh hd.symm
        simp [hne, hh]
    rw [List.countP_append, hsing]
    exact hmain
  · intro m hm
    rw [bumpAuthor_fst]
    rcases List.mem_append.mp hm with hm | hm
    · by_cases h2 : msg.displayName ∈ acc.map Prod.fst <;>
        simp [h2, hmem m hm]
    · have hm' : m = msg := List.mem_singleton.mp hm
      rw [hm']
      by_cases h2 : msg.displayName ∈ acc.map Prod.fst <;> simp [h2]

theorem goodAcc_foldl :
    ∀ (l processed : List Message) (acc : List (String × Nat)),
      goodAcc processed acc →
      goodAcc (processed ++ l)
        (l.foldl (fun acc m => bumpAuthor acc m.displayName) acc) := by
  intro l
  induction l with
  | nil =>
    intro processed acc h
    simpa using h
  | cons m rest ih =>
    intro processed acc h
    have := ih (processed ++ [m]) (bumpAuthor acc m.displayName)
      (goodAcc_step _ _ _ h)
    simpa [List.append_assoc] using this

theorem authorCounts_goodAcc (deleted : List Message) :
    goodAcc deleted (authorCounts deleted) := by
  have := goodAcc_foldl deleted [] [] ⟨List.nodup_nil, by simp, by simp⟩
  simpa [authorCounts] using this

/-- C10: the breakdown is keyed by the author's display name, not the author
identity: every entry's count is the total number of deleted messages bearing
that display name (summed across however many distinct author ids carry it),
display names are never repeated across entries, and in particular two
distinct authors sharing one display name collapse into a single entry whose
count is the sum of both. -/
theorem breakdown_keyed_by_display_name (deleted : List Message) :
    ((authorCounts deleted).map Prod.fst).Nodup ∧
    (∀ p ∈ authorCounts deleted,
      p.2 = deleted.countP (fun m => m.displayName == p.1)) ∧
    (∀ m ∈ deleted, m.displayName ∈ (authorCounts deleted).map Prod.fst) ∧
    (sharedNameExample.map Message.authorId).Nodup ∧
    authorCounts sharedNameExample = [("X", 2)] := by
  obtain ⟨h1, h2, h3⟩ := authorCounts_goodAcc deleted
  exact ⟨h1, h2, h3, by decide, by decide⟩

theorem breakdown_keyed_by_display_name_witness :
    ("X", 2) ∈ authorCounts sharedNameExample ∧
    (("X", 2) : String × Nat).2 =
      sharedNameExample.countP
        (fun m => m.displayName == (("X", 2) : String × Nat).1) :=
  ⟨by decide,
    (breakdown_keyed_by_display_name sharedNameExample).2.1 ("X", 2) (by decide)⟩

theorem old_partition_runs_after_abort_witness :
    (bulk_delete abortEnv (bulkPartition (0 - BULK_DELETE_LIMIT)
        (matchedMessages abortEnv 10 (fun _ => true)))).2.2 = true ∧
    Event.delete 3 ∈ (purge abortEnv 0 10 (fun _ => true)).2 :=
  ⟨by decide, by
    rw [old_partition_runs_after_abort abortEnv 0 10 (fun _ => true)
      (by decide) (by decide)]
    decide⟩

end MoistBot
